import Mathlib

/-!
# Verification of the Black-Litterman return estimator

Shallow embedding of `src/mcportfolio_mcp/solvers/black_litterman_solver.py`
over exact rational arithmetic (ℚ stands in for Python floats; the spec's
"within floating tolerance" comparisons become exact equalities).

Modelling conventions:
* A pandas `Series` / Python `dict[str, float]` becomes an association list
  `List (String × ℚ)` (Python dicts preserve insertion order).
* A pandas `DataFrame` covariance matrix becomes `CovDF`: its row/column
  labels plus an index-based entry function.
* A raised Python exception becomes an `Except BLError` result.  The
  constructors record the three raise sites of the source:
  `dimensionMismatch` for the pandas "matrices are not aligned" `ValueError`
  raised by `cov_matrix.dot(mkt_weights)` on label-set mismatch,
  `unknownAsset` for the `ValueError` raised by `list.index` when a view's
  asset is absent from the market-weight keys, and `invalidConfidence` for
  the explicit `ValueError` raised by `idzorek_method`.
* `numpy.linalg.solve` on an exactly singular matrix raises
  `LinAlgError("Singular matrix")`; over ℚ the singularity test is `det = 0`.
  The source catches that error and substitutes `numpy.linalg.lstsq`.
-/

set_option linter.unusedVariables false

/-- Errors corresponding to the exceptions the source can raise. -/
inductive BLError where
  /-- pandas `ValueError: matrices are not aligned` from `DataFrame.dot`. -/
  | dimensionMismatch : BLError
  /-- Python `ValueError` from `list(...).index(view.asset)` when the view's
  asset is not among the market-weight keys; carries the missing ticker. -/
  | unknownAsset : String → BLError
  /-- `ValueError("View confidences must be between 0 and 1")`. -/
  | invalidConfidence : BLError
deriving DecidableEq, Repr

/-- `BlackLittermanView` from
`src/mcportfolio_mcp/models/portfolio_black_litterman_models.py`:
one investor view `{asset, expected_return, confidence}`. -/
structure BlackLittermanView where
  asset : String
  expected_return : ℚ
  confidence : ℚ
deriving DecidableEq, Repr

/-- A labelled square covariance matrix (pandas `DataFrame`): the ordered
ticker labels and an entry function on positions.  Only positions below
`tickers.length` are meaningful. -/
structure CovDF where
  tickers : List String
  m : ℕ → ℕ → ℚ

/-- Embedding of a Python `for` loop that appends one result per element and
propagates the first raised exception (used for the view-encoding loop and
the `idzorek_method` loop of the source). -/
def mapExcept {α β : Type} (f : α → Except BLError β) : List α → Except BLError (List β)
  | [] => .ok []
  | x :: xs =>
    match f x with
    | .error e => .error e
    | .ok y =>
      match mapExcept f xs with
      | .error e => .error e
      | .ok ys => .ok (y :: ys)

/-- The `i`-th value of the implied prior: row `i` of
`risk_aversion * cov_matrix.dot(mkt_weights) + risk_free_rate`, where
`mkt_weights = mcaps / mcaps.sum()` and the dot product aligns the weight
series to the matrix columns by ticker label. -/
def priorVal (market_caps : List (String × ℚ)) (risk_aversion : ℚ)
    (cov_matrix : CovDF) (risk_free_rate : ℚ) (i : ℕ) : ℚ :=
  risk_aversion *
    (∑ j ∈ Finset.range cov_matrix.tickers.length,
      cov_matrix.m i j *
        ((market_caps.lookup (cov_matrix.tickers.getD j "")).getD 0 /
          (market_caps.map Prod.snd).sum)) +
  risk_free_rate

/-- `market_implied_prior_returns` (lines 7–27 of the source):
`mcaps / mcaps.sum()` followed by `risk_aversion * cov_matrix.dot(mkt_weights)
+ risk_free_rate`.  pandas `DataFrame.dot(Series)` raises when the label sets
differ (under unique labels its union-length test is two-sided containment)
and otherwise aligns the series to the matrix columns by label; the result is
indexed by the matrix's row labels. -/
def market_implied_prior_returns (market_caps : List (String × ℚ))
    (risk_aversion : ℚ) (cov_matrix : CovDF) (risk_free_rate : ℚ) :
    Except BLError (List (String × ℚ)) :=
  let keys := market_caps.map Prod.fst
  if keys.all (fun t => cov_matrix.tickers.contains t) &&
     cov_matrix.tickers.all (fun t => keys.contains t) then
    .ok ((List.range cov_matrix.tickers.length).map (fun i =>
      (cov_matrix.tickers.getD i "",
       priorVal market_caps risk_aversion cov_matrix risk_free_rate i)))
  else .error .dimensionMismatch

/-- The quadratic form `p_view @ cov_matrix.values @ p_view.T` (a scalar),
with `p_view` a row vector of width `cov.tickers.length`. -/
def quadForm (cov : CovDF) (v : ℕ → ℚ) : ℚ :=
  ∑ j ∈ Finset.range cov.tickers.length,
    ∑ j' ∈ Finset.range cov.tickers.length, v j * cov.m j j' * v j'

/-- `idzorek_method` (lines 42–82 of the source).  Iterates over
`range(len(q))`; for each view: rejects a confidence outside `[0,1]`,
maps confidence `0` to the constant `1e6`, and otherwise produces
`tau * ((1 - conf) / conf) * (p_view @ cov @ p_view.T)`.  Returns the list
`view_omegas` of diagonal entries (the source wraps it in `np.diag`).
The `pi` and `risk_aversion` parameters are accepted but never read,
exactly as in the source. -/
def idzorek_method (view_confidences : List ℚ) (cov_matrix : CovDF)
    (pi : List ℚ) (q : List ℚ) (p : List (ℕ → ℚ)) (tau : ℚ)
    (risk_aversion : ℚ) : Except BLError (List ℚ) :=
  mapExcept (fun view_idx =>
    let conf := view_confidences.getD view_idx 0
    if conf < 0 ∨ conf > 1 then .error .invalidConfidence
    else if conf = 0 then .ok (1000000 : ℚ)
    else
      let p_view := p.getD view_idx (fun _ => 0)
      let alpha := (1 - conf) / conf
      .ok (tau * alpha * quadForm cov_matrix p_view))
    (List.range q.length)

/-- Model of `numpy.linalg.lstsq(a, b, rcond=None)[0]`, the minimum-norm
least-squares solution, written as `aᵀ (a aᵀ)⁻¹ b` via the adjugate.  This
agrees with numpy when `a` has full row rank and when `a = 0` (both give the
zero solution for `a = 0`); for other rank-deficient square matrices the
surrounding development uses it only as a total fallback value. -/
def npLinalgLstsq {K : ℕ} (a : Matrix (Fin K) (Fin K) ℚ) (b : Fin K → ℚ) :
    Fin K → ℚ :=
  a.transpose.mulVec
    ((a * a.transpose).det⁻¹ • (a * a.transpose).adjugate.mulVec b)

/-- `np.linalg.solve(a, b)` with the source's `try/except` (lines 142–148):
the exact solve when `a` is invertible (written by Cramer's rule through the
adjugate), and on `LinAlgError("Singular matrix")` — i.e. `det = 0` — the
`np.linalg.lstsq` fallback. -/
def npLinalgSolve {K : ℕ} (a : Matrix (Fin K) (Fin K) ℚ) (b : Fin K → ℚ) :
    Fin K → ℚ :=
  if a.det = 0 then npLinalgLstsq a b
  else a.det⁻¹ • a.adjugate.mulVec b

/-- `tau_sigma_p = (tau * cov_matrix.values) @ p.T` (an N×K matrix), entry at
row `j`, column `k`. -/
def tauSigmaP (cov : CovDF) (p : List (ℕ → ℚ)) (tau : ℚ) (j k : ℕ) : ℚ :=
  ∑ j' ∈ Finset.range cov.tickers.length,
    (tau * cov.m j j') * (p.getD k (fun _ => 0)) j'

/-- `a = (p @ tau_sigma_p) + omega` (K×K), with `omega = np.diag(omegaDiag)`. -/
def bl_system_matrix (cov : CovDF) (p : List (ℕ → ℚ)) (omegaDiag : List ℚ)
    (tau : ℚ) (K : ℕ) : Matrix (Fin K) (Fin K) ℚ :=
  fun i k =>
    (∑ j ∈ Finset.range cov.tickers.length,
      (p.getD (i : ℕ) (fun _ => 0)) j * tauSigmaP cov p tau j (k : ℕ)) +
    (if (i : ℕ) = (k : ℕ) then omegaDiag.getD (i : ℕ) 0 else 0)

/-- `b = q - p @ pi` (K×1). -/
def bl_rhs (cov : CovDF) (pi q : List ℚ) (p : List (ℕ → ℚ)) (K : ℕ) :
    Fin K → ℚ :=
  fun i =>
    q.getD (i : ℕ) 0 -
      ∑ j ∈ Finset.range cov.tickers.length,
        (p.getD (i : ℕ) (fun _ => 0)) j * pi.getD j 0

/-- The posterior vector `post_rets = pi + tau_sigma_p @ solution` where
`solution = np.linalg.solve(a, b)` (with the least-squares fallback). -/
def bl_posterior (cov : CovDF) (pi q : List ℚ) (p : List (ℕ → ℚ))
    (omegaDiag : List ℚ) (tau : ℚ) (K : ℕ) : List ℚ :=
  (List.range cov.tickers.length).map (fun j =>
    pi.getD j 0 + ∑ k : Fin K, tauSigmaP cov p tau j (k : ℕ) *
      npLinalgSolve (bl_system_matrix cov p omegaDiag tau K)
        (bl_rhs cov pi q p K) k)

/-- One step of the view-encoding loop:
`asset_idx = list(market_cap_weights.keys()).index(view.asset)`, raising
when the asset is absent. -/
def encodeView (keys : List String) (v : BlackLittermanView) :
    Except BLError ℕ :=
  match keys.findIdx? (fun t => t = v.asset) with
  | some i => .ok i
  | none => .error (.unknownAsset v.asset)

/-- `calculate_black_litterman_returns` (lines 84–151 of the source):
prior, then the view-encoding loop (`list(keys).index(view.asset)`, one-hot
row of `p`, entries of `q` and `view_confidences`), then `idzorek_method`,
then the K×K solve and `pd.Series(post_rets, index=market_cap_weights.keys())`. -/
def calculate_black_litterman_returns (market_cap_weights : List (String × ℚ))
    (cov_matrix : CovDF) (views : List BlackLittermanView) (tau : ℚ)
    (risk_free_rate : ℚ) (risk_aversion : ℚ) :
    Except BLError (List (String × ℚ)) := do
  let piSeries ← market_implied_prior_returns market_cap_weights risk_aversion
      cov_matrix risk_free_rate
  let pi : List ℚ := piSeries.map Prod.snd
  let keys := market_cap_weights.map Prod.fst
  let assetIdx : List ℕ ← mapExcept (encodeView keys) views
  let q : List ℚ := views.map (fun v => v.expected_return)
  let view_confidences : List ℚ := views.map (fun v => v.confidence)
  let p : List (ℕ → ℚ) := assetIdx.map (fun ai => fun j => if j = ai then 1 else 0)
  let omegaDiag ← idzorek_method view_confidences cov_matrix pi q p tau
      risk_aversion
  .ok (keys.zip (bl_posterior cov_matrix pi q p omegaDiag tau views.length))

/-- Value at position `i` of a returned series (`0` when absent/errored). -/
def seriesValAt (r : Except BLError (List (String × ℚ))) (i : ℕ) : ℚ :=
  ((r.toOption.getD []).getD i ("", 0)).2

/-- Value under ticker `t` of a returned series (`0` when absent/errored). -/
def seriesVal (r : Except BLError (List (String × ℚ))) (t : String) : ℚ :=
  ((r.toOption.getD []).lookup t).getD 0

instance {ε α : Type} [DecidableEq ε] [DecidableEq α] : DecidableEq (Except ε α)
  | .error e, .error e' =>
    if h : e = e' then .isTrue (by rw [h]) else .isFalse (by simp [h])
  | .error _, .ok _ => .isFalse (by simp)
  | .ok _, .error _ => .isFalse (by simp)
  | .ok a, .ok b =>
    if h : a = b then .isTrue (by rw [h]) else .isFalse (by simp [h])

/-! ## Helper lemmas -/

theorem getD_range_map {α : Type} (f : ℕ → α) (n j : ℕ) (d : α) (h : j < n) :
    ((List.range n).map f).getD j d = f j := by
  rw [List.getD_eq_getElem?_getD, List.getElem?_map, List.getElem?_range h]
  rfl

theorem mapExcept_ok_forall {α β : Type} {f : α → Except BLError β}
    {l : List α} {ys : List β} (h : mapExcept f l = .ok ys) :
    ∀ x ∈ l, ∃ y, f x = .ok y := by
  induction l generalizing ys with
  | nil => intro x hx; cases hx
  | cons a as ih =>
    intro x hx
    simp only [mapExcept] at h
    cases hfa : f a with
    | error e => rw [hfa] at h; cases h
    | ok y =>
      rw [hfa] at h
      cases hrest : mapExcept f as with
      | error e => rw [hrest] at h; cases h
      | ok ys' =>
        rcases List.mem_cons.mp hx with rfl | hx
        · exact ⟨y, hfa⟩
        · exact ih hrest x hx

theorem mapExcept_error_exists {α β : Type} {f : α → Except BLError β}
    {l : List α} {e : BLError} (h : mapExcept f l = .error e) :
    ∃ x ∈ l, f x = .error e := by
  induction l with
  | nil => simp [mapExcept] at h
  | cons a as ih =>
    simp only [mapExcept] at h
    cases hfa : f a with
    | error e' =>
      rw [hfa] at h
      cases h
      exact ⟨a, List.mem_cons_self a as, hfa⟩
    | ok y =>
      rw [hfa] at h
      cases hrest : mapExcept f as with
      | error e' =>
        rw [hrest] at h
        cases h
        obtain ⟨x, hx, hfx⟩ := ih hrest
        exact ⟨x, List.mem_cons_of_mem a hx, hfx⟩
      | ok ys' => rw [hrest] at h; cases h

theorem mapExcept_all_ok {α β : Type} {f : α → Except BLError β}
    {l : List α} (h : ∀ x ∈ l, ∃ y, f x = .ok y) :
    ∃ ys, mapExcept f l = .ok ys := by
  induction l with
  | nil => exact ⟨[], rfl⟩
  | cons a as ih =>
    obtain ⟨y, hy⟩ := h a (List.mem_cons_self a as)
    obtain ⟨ys, hys⟩ := ih (fun x hx => h x (List.mem_cons_of_mem a hx))
    exact ⟨y :: ys, by simp only [mapExcept, hy, hys]⟩

theorem findIdx?_lt_length {α : Type} {p : α → Bool} {l : List α} {i : ℕ}
    (h : List.findIdx? p l = some i) : i < l.length :=
  (List.findIdx?_eq_some_iff_findIdx_eq.mp h).1

/-- Aligned inputs (market-weight keys identical to the covariance tickers)
pass the pandas label check, so the prior is the computed list. -/
theorem prior_ok_of_align {w : List (String × ℚ)} {cov : CovDF} (δ rf : ℚ)
    (halign : w.map Prod.fst = cov.tickers) :
    market_implied_prior_returns w δ cov rf =
      .ok ((List.range cov.tickers.length).map (fun i =>
        (cov.tickers.getD i "", priorVal w δ cov rf i))) := by
  unfold market_implied_prior_returns
  rw [halign]
  simp [List.all_eq_true, List.elem_iff]

/-- The one-hot factor on the right collapses a sum over `range n`. -/
theorem sum_range_onehot_mul (n a : ℕ) (f : ℕ → ℚ) (ha : a < n) :
    (∑ j ∈ Finset.range n, f j * (if j = a then 1 else 0)) = f a := by
  have hmem : a ∈ Finset.range n := Finset.mem_range.mpr ha
  have h := Finset.sum_ite_eq' (Finset.range n) a f
  rw [if_pos hmem] at h
  rw [← h]
  refine Finset.sum_congr rfl (fun j _ => ?_)
  by_cases hj : j = a <;> simp [hj]

/-- The one-hot factor on the left collapses a sum over `range n`. -/
theorem sum_range_onehot_mul' (n a : ℕ) (f : ℕ → ℚ) (ha : a < n) :
    (∑ j ∈ Finset.range n, (if j = a then 1 else 0) * f j) = f a := by
  rw [← sum_range_onehot_mul n a f ha]
  exact Finset.sum_congr rfl (fun j _ => mul_comm _ _)

/-- The quadratic form of a one-hot row picks out the diagonal entry. -/
theorem quadForm_onehot (cov : CovDF) (a : ℕ) (ha : a < cov.tickers.length) :
    quadForm cov (fun j => if j = a then 1 else 0) = cov.m a a := by
  unfold quadForm
  have inner : ∀ j : ℕ,
      (∑ j' ∈ Finset.range cov.tickers.length,
        (if j = a then (1:ℚ) else 0) * cov.m j j' * (if j' = a then 1 else 0))
      = (if j = a then (1:ℚ) else 0) * cov.m j a := by
    intro j
    exact sum_range_onehot_mul _ a
      (fun j' => (if j = a then (1:ℚ) else 0) * cov.m j j') ha
  calc (∑ j ∈ Finset.range cov.tickers.length,
          ∑ j' ∈ Finset.range cov.tickers.length,
            (if j = a then (1:ℚ) else 0) * cov.m j j' * (if j' = a then 1 else 0))
      = ∑ j ∈ Finset.range cov.tickers.length,
          (if j = a then (1:ℚ) else 0) * cov.m j a :=
        Finset.sum_congr rfl (fun j _ => inner j)
    _ = cov.m a a := sum_range_onehot_mul' _ a (fun j => cov.m j a) ha

/-- `tau_sigma_p` against a one-hot picking row is `τ` times column `a`. -/
theorem tauSigmaP_single (cov : CovDF) (a : ℕ) (τ : ℚ) (j : ℕ)
    (ha : a < cov.tickers.length) :
    tauSigmaP cov [fun j' => if j' = a then 1 else 0] τ j 0 = τ * cov.m j a := by
  unfold tauSigmaP
  have hget : ([fun j' => if j' = a then (1:ℚ) else 0].getD 0 (fun _ => 0)) =
      fun j' => if j' = a then (1:ℚ) else 0 := rfl
  rw [hget]
  exact sum_range_onehot_mul _ a (fun j' => τ * cov.m j j') ha

/-- The 1×1 exact solve is scalar division. -/
theorem npLinalgSolve_fin_one (A : Matrix (Fin 1) (Fin 1) ℚ) (b : Fin 1 → ℚ)
    (h : A 0 0 ≠ 0) : npLinalgSolve A b = fun _ => b 0 / A 0 0 := by
  unfold npLinalgSolve
  rw [Matrix.det_fin_one, if_neg h, Matrix.adjugate_fin_one, Matrix.one_mulVec]
  funext i
  have hi : i = 0 := Subsingleton.elim i 0
  subst hi
  simp [Pi.smul_apply, smul_eq_mul, div_eq_mul_inv, mul_comm]

/-- Closed form of the posterior for a single one-hot view: only the viewed
column of `Σ` moves, by the scalar `(q - π_a) / (τ Σ_aa + ω)`. -/
theorem bl_posterior_single (cov : CovDF) (piL : List ℚ) (qv ω τ : ℚ) (a : ℕ)
    (ha : a < cov.tickers.length)
    (hM : τ * cov.m a a + ω ≠ 0) :
    bl_posterior cov piL [qv] [fun j => if j = a then 1 else 0] [ω] τ 1 =
      (List.range cov.tickers.length).map (fun j =>
        piL.getD j 0 +
          τ * cov.m j a * ((qv - piL.getD a 0) / (τ * cov.m a a + ω))) := by
  have hp0 : ([fun j' => if j' = a then (1:ℚ) else 0].getD 0 (fun _ => 0)) =
      fun j' => if j' = a then (1:ℚ) else 0 := rfl
  have hsys : bl_system_matrix cov [fun j => if j = a then 1 else 0] [ω] τ 1 0 0 =
      τ * cov.m a a + ω := by
    show (∑ j ∈ Finset.range cov.tickers.length,
        ([fun j' => if j' = a then (1:ℚ) else 0].getD ((0 : Fin 1) : ℕ)
          (fun _ => 0)) j *
          tauSigmaP cov [fun j' => if j' = a then 1 else 0] τ j ((0 : Fin 1) : ℕ)) +
        (if ((0 : Fin 1) : ℕ) = ((0 : Fin 1) : ℕ) then [ω].getD ((0 : Fin 1) : ℕ) 0 else 0) =
        τ * cov.m a a + ω
    rw [Fin.val_zero, hp0, if_pos rfl]
    have hsum := sum_range_onehot_mul' cov.tickers.length a
      (fun j => tauSigmaP cov [fun j' => if j' = a then 1 else 0] τ j 0) ha
    rw [hsum]
    show tauSigmaP cov [fun j' => if j' = a then 1 else 0] τ a 0 + [ω].getD 0 0 =
      τ * cov.m a a + ω
    rw [tauSigmaP_single cov a τ a ha]
    rfl
  have hrhs : bl_rhs cov piL [qv] [fun j => if j = a then 1 else 0] 1 0 =
      qv - piL.getD a 0 := by
    show [qv].getD ((0 : Fin 1) : ℕ) 0 -
        (∑ j ∈ Finset.range cov.tickers.length,
          ([fun j' => if j' = a then (1:ℚ) else 0].getD ((0 : Fin 1) : ℕ)
            (fun _ => 0)) j * piL.getD j 0) =
        qv - piL.getD a 0
    rw [Fin.val_zero, hp0]
    have hsum := sum_range_onehot_mul' cov.tickers.length a
      (fun j => piL.getD j 0) ha
    rw [hsum]
    rfl
  have hdet : bl_system_matrix cov [fun j => if j = a then 1 else 0] [ω] τ 1 0 0 ≠ 0 := by
    rw [hsys]; exact hM
  unfold bl_posterior
  refine List.map_congr_left (fun j _ => ?_)
  rw [npLinalgSolve_fin_one _ _ hdet, Fin.sum_univ_one, hrhs, hsys]
  show piL.getD j 0 +
      tauSigmaP cov [fun j' => if j' = a then 1 else 0] τ j ((0 : Fin 1) : ℕ) *
        ((qv - piL.getD a 0) / (τ * cov.m a a + ω)) =
    piL.getD j 0 + τ * cov.m j a * ((qv - piL.getD a 0) / (τ * cov.m a a + ω))
  rw [Fin.val_zero, tauSigmaP_single cov a τ j ha]

/-- Zipping a label list with values generated over its index range. -/
theorem zip_range_map {α : Type} (l : List String) (f : ℕ → α) :
    l.zip ((List.range l.length).map f) =
      (List.range l.length).map (fun i => (l.getD i "", f i)) := by
  induction l generalizing f with
  | nil => rfl
  | cons a l' ih =>
    rw [List.length_cons, List.range_succ_eq_map]
    simp only [List.map_cons, List.map_map, List.zip_cons_cons]
    rw [ih (f ∘ Nat.succ)]
    simp [Function.comp, List.getD_cons_zero, List.getD_cons_succ]

theorem except_bind_ok {ε α β : Type} (x : α) (f : α → Except ε β) :
    (Except.ok x : Except ε α) >>= f = f x := rfl

theorem except_bind_error {ε α β : Type} (e : ε) (f : α → Except ε β) :
    (Except.error e : Except ε α) >>= f = Except.error e := rfl

/-- With no views the linear-correction term is an empty sum. -/
theorem bl_posterior_zero (cov : CovDF) (piL q : List ℚ) (p : List (ℕ → ℚ))
    (od : List ℚ) (τ : ℚ) :
    bl_posterior cov piL q p od τ 0 =
      (List.range cov.tickers.length).map (fun j => piL.getD j 0) := by
  unfold bl_posterior
  refine List.map_congr_left (fun j _ => ?_)
  simp

/-- **C1.** With an empty list of views (K = 0), the posterior computation
returns exactly the Prior Estimator's output: for an aligned universe the
whole result series (every ticker's value) coincides with
`market_implied_prior_returns`. -/
theorem C1_zero_views_posterior_equals_prior (w : List (String × ℚ))
    (cov : CovDF) (τ rf δ : ℚ) (halign : w.map Prod.fst = cov.tickers) :
    calculate_black_litterman_returns w cov [] τ rf δ =
      market_implied_prior_returns w δ cov rf := by
  have hprior := prior_ok_of_align δ rf halign
  unfold calculate_black_litterman_returns
  rw [hprior]
  simp only [except_bind_ok, mapExcept, idzorek_method, List.map_nil,
    List.length_nil, List.range_zero]
  rw [bl_posterior_zero]
  congr 1
  have hmap : ((List.range cov.tickers.length).map (fun i =>
      (cov.tickers.getD i "", priorVal w δ cov rf i))).map Prod.snd =
      (List.range cov.tickers.length).map (fun i => priorVal w δ cov rf i) := by
    rw [List.map_map]
    rfl
  rw [hmap]
  have hvals : (List.range cov.tickers.length).map (fun j =>
      ((List.range cov.tickers.length).map (fun i => priorVal w δ cov rf i)).getD j 0) =
      (List.range cov.tickers.length).map (fun j => priorVal w δ cov rf j) := by
    refine List.map_congr_left (fun j hj => ?_)
    exact getD_range_map _ _ _ _ (List.mem_range.mp hj)
  rw [hvals, halign]
  exact zip_range_map cov.tickers (fun i => priorVal w δ cov rf i)

/-- `idzorek_method` on a single one-hot view: the sole diagonal entry is
`1e6` at zero confidence and `τ·((1−c)/c)·Σ_aa` otherwise. -/
theorem idzorek_single (cov : CovDF) (piL : List ℚ) (qv c τ δ : ℚ) (a : ℕ)
    (ha : a < cov.tickers.length) (hc0 : 0 ≤ c) (hc1 : c ≤ 1) :
    idzorek_method [c] cov piL [qv] [fun j => if j = a then 1 else 0] τ δ =
      .ok [if c = 0 then 1000000 else τ * ((1 - c) / c) * cov.m a a] := by
  unfold idzorek_method
  have hnot : ¬(c < 0 ∨ c > 1) := by
    push_neg
    exact ⟨hc0, hc1⟩
  simp only [List.length_cons, List.length_nil,
    show List.range 1 = [0] from rfl, mapExcept, List.getD_cons_zero]
  rw [if_neg hnot]
  by_cases hc : c = 0
  · simp [hc]
  · rw [if_neg hc, if_neg hc, quadForm_onehot cov a ha]

/-- Closed form of the full pipeline for a single absolute view on the asset
at position `a`: every entry moves by `τ Σ_ja` times the scalar
`(q − π_a) / (τ Σ_aa + ω)`, with `ω` the Idzorek uncertainty. -/
theorem calculate_single_view (w : List (String × ℚ)) (cov : CovDF)
    (s : String) (qv c τ rf δ : ℚ) (a : ℕ)
    (halign : w.map Prod.fst = cov.tickers)
    (hfind : (w.map Prod.fst).findIdx? (fun t => t = s) = some a)
    (hc0 : 0 ≤ c) (hc1 : c ≤ 1)
    (hM : τ * cov.m a a +
      (if c = 0 then 1000000 else τ * ((1 - c) / c) * cov.m a a) ≠ 0) :
    calculate_black_litterman_returns w cov [⟨s, qv, c⟩] τ rf δ =
      .ok ((w.map Prod.fst).zip ((List.range cov.tickers.length).map (fun j =>
        priorVal w δ cov rf j + τ * cov.m j a *
          ((qv - priorVal w δ cov rf a) /
            (τ * cov.m a a +
              (if c = 0 then 1000000 else τ * ((1 - c) / c) * cov.m a a)))))) := by
  have ha : a < cov.tickers.length := by
    have h1 := findIdx?_lt_length hfind
    rwa [halign] at h1
  have hprior := prior_ok_of_align δ rf halign
  unfold calculate_black_litterman_returns
  rw [hprior]
  simp only [except_bind_ok, mapExcept, encodeView, hfind, List.map_cons,
    List.map_nil]
  rw [idzorek_single cov _ qv c τ δ a ha hc0 hc1]
  simp only [except_bind_ok, List.length_cons, List.length_nil]
  rw [bl_posterior_single cov _ qv _ τ a ha hM]
  congr 1
  congr 1
  have hmap : ((List.range cov.tickers.length).map (fun i =>
      (cov.tickers.getD i "", priorVal w δ cov rf i))).map Prod.snd =
      (List.range cov.tickers.length).map (fun i => priorVal w δ cov rf i) := by
    rw [List.map_map]
    rfl
  rw [hmap]
  refine List.map_congr_left (fun j hj => ?_)
  rw [getD_range_map _ _ _ _ (List.mem_range.mp hj),
    getD_range_map _ _ _ _ ha]

/-! ## Concrete fixtures (the spec's concrete scenario §8) -/

/-- Equal market weights on the universe `[A, B, C]`. -/
def w3 : List (String × ℚ) := [("A", 1/3), ("B", 1/3), ("C", 1/3)]

/-- `Σ = diag(0.04, 0.09, 0.01)` over `[A, B, C]`. -/
def cov3 : CovDF :=
  ⟨["A", "B", "C"], fun i j =>
    if i = 0 ∧ j = 0 then 1/25
    else if i = 1 ∧ j = 1 then 9/100
    else if i = 2 ∧ j = 2 then 1/100
    else 0⟩

/-- The single view: asset `A`, expected return `0.10`, confidence `0.8`. -/
def viewA : BlackLittermanView := ⟨"A", 1/10, 4/5⟩

/-- **C4.** Concrete scenario: equal weights on `[A,B,C]`,
`Σ = diag(0.04, 0.09, 0.01)`, `δ = 2.5`, `rf = 0`, `τ = 0.05`, one view
`{A, 0.10, 0.8}`.  The posterior is `(13/150, 3/40, 1/120)`; the prior is
`(1/30, 3/40, 1/120)`; `A`'s posterior lies strictly between its prior
`1/30 ≈ 0.0333` and `0.10` and is closer to `0.10`, while `B` and `C` keep
exactly their prior returns. -/
theorem C4_concrete_scenario :
    calculate_black_litterman_returns w3 cov3 [viewA] (1/20) 0 (5/2) =
        .ok [("A", 13/150), ("B", 3/40), ("C", 1/120)] ∧
      market_implied_prior_returns w3 (5/2) cov3 0 =
        .ok [("A", 1/30), ("B", 3/40), ("C", 1/120)] ∧
      (1/30 : ℚ) < 13/150 ∧ (13/150 : ℚ) < 1/10 ∧
      |(1/10 : ℚ) - 13/150| < |(13/150 : ℚ) - 1/30| := by
  have h1 := calculate_single_view w3 cov3 "A" (1/10) (4/5) (1/20) 0 (5/2) 0
    rfl rfl (by norm_num) (by norm_num) (by norm_num [cov3])
  refine ⟨?_, ?_, by norm_num, by norm_num, by rw [abs_of_nonneg, abs_of_nonneg] <;> norm_num⟩
  · simp only [viewA]
    rw [h1]
    norm_num [priorVal, Finset.sum_range_succ, w3, cov3,
      show List.range 3 = [0, 1, 2] from rfl,
      show List.lookup "A" [("A", (1:ℚ)/3), ("B", 1/3), ("C", 1/3)] = some (1/3) from rfl,
      show List.lookup "B" [("A", (1:ℚ)/3), ("B", 1/3), ("C", 1/3)] = some (1/3) from rfl,
      show List.lookup "C" [("A", (1:ℚ)/3), ("B", 1/3), ("C", 1/3)] = some (1/3) from rfl]
  · norm_num [market_implied_prior_returns, priorVal, Finset.sum_range_succ, w3, cov3,
      show List.range 3 = [0, 1, 2] from rfl,
      show List.lookup "A" [("A", (1:ℚ)/3), ("B", 1/3), ("C", 1/3)] = some (1/3) from rfl,
      show List.lookup "B" [("A", (1:ℚ)/3), ("B", 1/3), ("C", 1/3)] = some (1/3) from rfl,
      show List.lookup "C" [("A", (1:ℚ)/3), ("B", 1/3), ("C", 1/3)] = some (1/3) from rfl]

/-- Scaling every weight scales the lookup result. -/
theorem lookup_scale (l : List (String × ℚ)) (t : String) (c : ℚ) :
    (l.map (fun p => (p.1, c * p.2))).lookup t =
      (l.lookup t).map (fun v => c * v) := by
  induction l with
  | nil => rfl
  | cons hd tl ih =>
    simp only [List.map_cons, List.lookup]
    by_cases h : t == hd.1
    · simp [h]
    · simp only [h]
      exact ih

/-- Scaling every weight scales the total. -/
theorem sum_snd_scale (l : List (String × ℚ)) (c : ℚ) :
    ((l.map (fun p => (p.1, c * p.2))).map Prod.snd).sum =
      c * (l.map Prod.snd).sum := by
  induction l with
  | nil => simp
  | cons hd tl ih =>
    simp only [List.map_cons, List.sum_cons, ih]
    ring

/-- The implied prior value is invariant under scaling all weights by a
nonzero constant (the normalisation `w / sum(w)` cancels it). -/
theorem priorVal_scale (w : List (String × ℚ)) (δ : ℚ) (cov : CovDF)
    (rf c : ℚ) (hc : c ≠ 0) (i : ℕ) :
    priorVal (w.map (fun p => (p.1, c * p.2))) δ cov rf i =
      priorVal w δ cov rf i := by
  unfold priorVal
  congr 1
  congr 1
  refine Finset.sum_congr rfl (fun j _ => ?_)
  rw [lookup_scale, sum_snd_scale]
  cases hl : w.lookup (cov.tickers.getD j "") with
  | none => simp
  | some v =>
    have hred : ((some v).map (fun v => c * v)).getD 0 = c * v := rfl
    rw [hred, mul_div_mul_left v _ hc]
    rfl

/-- The spec's Prior Estimator formula, written from the spec's words:
`Pi = δ · Σ · (w / sum(w)) + rf`, the weight vector normalised by its total
before the matrix-vector product, output aligned to the covariance order. -/
def prior_spec_formula (w : List (String × ℚ)) (δ : ℚ) (cov : CovDF)
    (rf : ℚ) : List (String × ℚ) :=
  (List.range cov.tickers.length).map (fun i =>
    (cov.tickers.getD i "",
     δ * (∑ j ∈ Finset.range cov.tickers.length,
       cov.m i j *
         ((w.lookup (cov.tickers.getD j "")).getD 0 / (w.map Prod.snd).sum)) +
     rf))

/-- **C2.** For aligned inputs with positive weight total, the Prior
Estimator returns exactly the spec's `Pi = δ · Σ · (w / sum(w)) + rf`
(weights normalised before the product), and scaling all weights by a
positive constant leaves the output unchanged. -/
theorem C2_prior_formula_and_scale_invariance (w : List (String × ℚ))
    (cov : CovDF) (δ rf c : ℚ)
    (halign : w.map Prod.fst = cov.tickers)
    (hsum : 0 < (w.map Prod.snd).sum) (hc : 0 < c) :
    market_implied_prior_returns w δ cov rf =
        .ok (prior_spec_formula w δ cov rf) ∧
      market_implied_prior_returns (w.map (fun p => (p.1, c * p.2))) δ cov rf =
        market_implied_prior_returns w δ cov rf := by
  have halign2 : (w.map (fun p => (p.1, c * p.2))).map Prod.fst =
      cov.tickers := by
    rw [List.map_map]
    exact halign
  constructor
  · rw [prior_ok_of_align δ rf halign]
    rfl
  · rw [prior_ok_of_align δ rf halign, prior_ok_of_align δ rf halign2]
    congr 1
    refine List.map_congr_left (fun i _ => ?_)
    rw [priorVal_scale w δ cov rf c (ne_of_gt hc) i]

/-- **C8.** The Prior Estimator fails exactly when the market-weight ticker
set and the covariance ticker set disagree, and then with
`dimensionMismatch`; on any other input it succeeds — there is no other
error condition. -/
theorem C8_prior_dimension_mismatch_only (w : List (String × ℚ))
    (cov : CovDF) (δ rf : ℚ) :
    (market_implied_prior_returns w δ cov rf = .error .dimensionMismatch ∨
      ∃ l, market_implied_prior_returns w δ cov rf = .ok l) ∧
    (market_implied_prior_returns w δ cov rf = .error .dimensionMismatch ↔
      ¬((∀ t ∈ w.map Prod.fst, t ∈ cov.tickers) ∧
        (∀ t ∈ cov.tickers, t ∈ w.map Prod.fst))) := by
  unfold market_implied_prior_returns
  by_cases hcond : ((w.map Prod.fst).all (fun t => cov.tickers.contains t) &&
      cov.tickers.all (fun t => (w.map Prod.fst).contains t)) = true
  · rw [if_pos hcond]
    constructor
    · exact Or.inr ⟨_, rfl⟩
    · constructor
      · intro h; cases h
      · intro hneg
        exfalso
        apply hneg
        simp only [Bool.and_eq_true, List.all_eq_true] at hcond
        constructor
        · intro t ht
          have := hcond.1 t ht
          simpa [List.elem_iff] using this
        · intro t ht
          have := hcond.2 t ht
          simpa [List.elem_iff] using this
  · rw [if_neg hcond]
    constructor
    · exact Or.inl rfl
    · constructor
      · intro _ hpos
        apply hcond
        simp only [Bool.and_eq_true, List.all_eq_true]
        constructor
        · intro t ht
          simpa [List.elem_iff] using hpos.1 t ht
        · intro t ht
          simpa [List.elem_iff] using hpos.2 t ht
      · intro _
        rfl

/-- **C10.** `idzorek_method` accepts a `risk_aversion` argument but never
reads it: two calls differing only in `risk_aversion` return identical
uncertainty matrices. -/
theorem C10_idzorek_independent_of_risk_aversion (view_confidences : List ℚ)
    (cov : CovDF) (pi q : List ℚ) (p : List (ℕ → ℚ)) (τ ra ra' : ℚ) :
    idzorek_method view_confidences cov pi q p τ ra =
      idzorek_method view_confidences cov pi q p τ ra' := rfl

/-- When every element maps to `ok`, the loop returns the mapped list. -/
theorem mapExcept_ok_of_ok {α β : Type} {f : α → Except BLError β}
    {g : α → β} {l : List α} (h : ∀ x ∈ l, f x = .ok (g x)) :
    mapExcept f l = .ok (l.map g) := by
  induction l with
  | nil => rfl
  | cons a as ih =>
    simp only [mapExcept, h a (List.mem_cons_self a as),
      ih (fun x hx => h x (List.mem_cons_of_mem a hx)), List.map_cons]

/-- **C3.** For views whose confidences all lie in `[0,1]`, `idzorek_method`
succeeds and yields one uncertainty per view: `1e6` where the confidence is
zero and `τ·((1−c)/c)·(pᵢ Σ pᵢᵗ)` otherwise; arranged as `np.diag` of that
list, the K×K matrix has zero off-diagonal entries. -/
theorem C3_idzorek_uncertainty_matrix (view_confidences : List ℚ)
    (cov : CovDF) (pi q : List ℚ) (p : List (ℕ → ℚ)) (τ δ : ℚ)
    (hc : ∀ i < q.length,
      0 ≤ view_confidences.getD i 0 ∧ view_confidences.getD i 0 ≤ 1) :
    ∃ l, idzorek_method view_confidences cov pi q p τ δ = .ok l ∧
      l.length = q.length ∧
      (∀ i < q.length, l.getD i 0 =
        if view_confidences.getD i 0 = 0 then 1000000
        else τ * ((1 - view_confidences.getD i 0) / view_confidences.getD i 0) *
          quadForm cov (p.getD i (fun _ => 0))) ∧
      (∀ i k : Fin q.length, i ≠ k →
        Matrix.diagonal (fun i : Fin q.length => l.getD (i : ℕ) 0) i k = 0) := by
  set g : ℕ → ℚ := fun i =>
    if view_confidences.getD i 0 = 0 then 1000000
    else τ * ((1 - view_confidences.getD i 0) / view_confidences.getD i 0) *
      quadForm cov (p.getD i (fun _ => 0)) with hg
  have hbody : ∀ i ∈ List.range q.length,
      (fun view_idx =>
        if view_confidences.getD view_idx 0 < 0 ∨ view_confidences.getD view_idx 0 > 1
        then (Except.error BLError.invalidConfidence : Except BLError ℚ)
        else if view_confidences.getD view_idx 0 = 0 then .ok (1000000 : ℚ)
        else .ok (τ * ((1 - view_confidences.getD view_idx 0) / view_confidences.getD view_idx 0) *
          quadForm cov (p.getD view_idx (fun _ => 0)))) i = .ok (g i) := by
    intro i hi
    have hci := hc i (List.mem_range.mp hi)
    have hnot : ¬(view_confidences.getD i 0 < 0 ∨ view_confidences.getD i 0 > 1) := by
      push_neg
      exact hci
    simp only [hg]
    rw [if_neg hnot]
    split_ifs <;> rfl
  refine ⟨(List.range q.length).map g, ?_, ?_, ?_, ?_⟩
  · exact mapExcept_ok_of_ok hbody
  · simp
  · intro i hi
    rw [getD_range_map _ _ _ _ hi]
  · intro i k hik
    exact Matrix.diagonal_apply_ne _ hik

/-- A ticker that is absent from the key list is never found. -/
theorem findIdx?_of_not_mem {l : List String} {s : String}
    (hs : s ∉ l) : l.findIdx? (fun t => t = s) = none := by
  rw [List.findIdx?_eq_none_iff]
  intro x hx
  simp only [decide_eq_false_iff_not]
  intro h
  exact hs (h ▸ hx)

/-- A ticker present in the key list is found at some index. -/
theorem findIdx?_of_mem {l : List String} {s : String} (hs : s ∈ l) :
    ∃ i, l.findIdx? (fun t => t = s) = some i := by
  cases h : l.findIdx? (fun t => t = s) with
  | some i => exact ⟨i, rfl⟩
  | none =>
    exfalso
    have := List.findIdx?_eq_none_iff.mp h s hs
    simp at this

/-- The view encoder succeeds exactly on views whose asset is a key. -/
theorem encodeView_ok_of_mem {keys : List String} {v : BlackLittermanView}
    (hv : v.asset ∈ keys) : ∃ i, encodeView keys v = .ok i := by
  obtain ⟨i, hi⟩ := findIdx?_of_mem hv
  exact ⟨i, by unfold encodeView; rw [hi]⟩

/-- **C5.** If some view references a ticker outside the asset universe (the
market-weight key set) — the rest of the input respecting the data-model
alignment invariant — the computation fails with an unknown-asset error
(the `ValueError` raised by `list.index`) naming a ticker that is not in the
universe, and no result is produced. -/
theorem C5_unknown_asset_aborts (w : List (String × ℚ)) (cov : CovDF)
    (views : List BlackLittermanView) (τ rf δ : ℚ)
    (halign : w.map Prod.fst = cov.tickers)
    (hbad : ∃ v ∈ views, v.asset ∉ w.map Prod.fst) :
    ∃ s, calculate_black_litterman_returns w cov views τ rf δ =
        .error (.unknownAsset s) ∧ s ∉ w.map Prod.fst := by
  have herr : ∃ s, mapExcept (encodeView (w.map Prod.fst)) views =
      .error (.unknownAsset s) ∧ s ∉ w.map Prod.fst := by
    cases hres : mapExcept (encodeView (w.map Prod.fst)) views with
    | ok idx =>
      exfalso
      obtain ⟨v, hv, hnotmem⟩ := hbad
      obtain ⟨y, hy⟩ := mapExcept_ok_forall hres v hv
      unfold encodeView at hy
      rw [findIdx?_of_not_mem hnotmem] at hy
      exact Except.noConfusion hy
    | error e =>
      obtain ⟨x, hx, hfx⟩ := mapExcept_error_exists hres
      unfold encodeView at hfx
      cases hfi : (w.map Prod.fst).findIdx? (fun t => t = x.asset) with
      | some i =>
        rw [hfi] at hfx
        exact Except.noConfusion hfx
      | none =>
        rw [hfi] at hfx
        have he : BLError.unknownAsset x.asset = e := by
          injection hfx
        refine ⟨x.asset, ?_, ?_⟩
        · rw [← he]
        · intro hmem
          have h2 := List.findIdx?_eq_none_iff.mp hfi x.asset hmem
          simp at h2
  obtain ⟨s, hmap, hs⟩ := herr
  refine ⟨s, ?_, hs⟩
  unfold calculate_black_litterman_returns
  rw [prior_ok_of_align δ rf halign]
  simp only [except_bind_ok]
  rw [hmap]
  rfl

/-- `getD` through a `map`, at an in-range index. -/
theorem getD_map_get {α β : Type} (f : α → β) (l : List α) (i : ℕ)
    (h : i < l.length) (d : β) :
    (l.map f).getD i d = f (l.get ⟨i, h⟩) := by
  rw [List.getD_eq_getElem?_getD, List.getElem?_map,
    List.getElem?_eq_getElem h]
  rfl

/-- The only error `idzorek_method` can produce is the invalid-confidence
one. -/
theorem idzorek_error_is_invalidConfidence {vc : List ℚ} {cov : CovDF}
    {pi q : List ℚ} {p : List (ℕ → ℚ)} {τ δ : ℚ} {e : BLError}
    (h : idzorek_method vc cov pi q p τ δ = .error e) :
    e = .invalidConfidence := by
  unfold idzorek_method at h
  obtain ⟨i, hi, hfi⟩ := mapExcept_error_exists h
  dsimp only at hfi
  split_ifs at hfi
  injection hfi with h3
  exact h3.symm

/-- With an out-of-range confidence at an in-range position, `idzorek_method`
cannot succeed. -/
theorem idzorek_not_ok_of_bad {vc : List ℚ} {cov : CovDF} {pi q : List ℚ}
    {p : List (ℕ → ℚ)} {τ δ : ℚ} {i : ℕ} (hi : i < q.length)
    (hbad : vc.getD i 0 < 0 ∨ vc.getD i 0 > 1) :
    ∀ l, idzorek_method vc cov pi q p τ δ ≠ .ok l := by
  intro l hok
  unfold idzorek_method at hok
  obtain ⟨y, hy⟩ := mapExcept_ok_forall hok i (List.mem_range.mpr hi)
  dsimp only at hy
  rw [if_pos hbad] at hy
  exact Except.noConfusion hy

/-- **C6 (amended).** On inputs satisfying the data-model invariant (aligned
universe, every view's asset a member), a confidence outside `[0,1]` anywhere
in the view list makes the whole computation abort with the
invalid-confidence error and no partial result.  (The claim's further
assertion that this is detected *before any matrix arithmetic* is refuted
separately: the prior is computed first, so a dimension mismatch preempts
the confidence check.) -/
theorem C6_invalid_confidence_aborts (w : List (String × ℚ)) (cov : CovDF)
    (views : List BlackLittermanView) (τ rf δ : ℚ)
    (halign : w.map Prod.fst = cov.tickers)
    (hfound : ∀ v ∈ views, v.asset ∈ w.map Prod.fst)
    (hbad : ∃ i, ∃ h : i < views.length,
      ((views.get ⟨i, h⟩).confidence < 0 ∨ 1 < (views.get ⟨i, h⟩).confidence)) :
    calculate_black_litterman_returns w cov views τ rf δ =
      .error .invalidConfidence := by
  unfold calculate_black_litterman_returns
  rw [prior_ok_of_align δ rf halign]
  simp only [except_bind_ok]
  obtain ⟨idx, hidx⟩ := mapExcept_all_ok
    (f := encodeView (w.map Prod.fst)) (l := views)
    (fun v hv => encodeView_ok_of_mem (hfound v hv))
  rw [hidx]
  simp only [except_bind_ok]
  obtain ⟨i, hlen, hbadi⟩ := hbad
  have hlenq : i < (views.map (fun v => v.expected_return)).length := by
    simpa using hlen
  have hconf : (views.map (fun v => v.confidence)).getD i 0 =
      (views.get ⟨i, hlen⟩).confidence := by
    rw [getD_map_get (fun v => v.confidence) views i hlen 0]
  have hbadc : (views.map (fun v => v.confidence)).getD i 0 < 0 ∨
      (views.map (fun v => v.confidence)).getD i 0 > 1 := by
    rw [hconf]
    exact hbadi
  cases hres : idzorek_method (views.map (fun v => v.confidence)) cov
      (((List.range cov.tickers.length).map (fun i =>
        (cov.tickers.getD i "", priorVal w δ cov rf i))).map Prod.snd)
      (views.map (fun v => v.expected_return))
      (idx.map (fun ai => fun j => if j = ai then 1 else 0)) τ δ with
  | ok l =>
    exfalso
    exact idzorek_not_ok_of_bad hlenq hbadc l hres
  | error e =>
    have he := idzorek_error_is_invalidConfidence hres
    subst he
    rfl

/-- **C6 (counterexample).** The invalid-confidence check is *not* performed
before all matrix arithmetic: the prior (a matrix product) runs first, so an
input whose weight/covariance tickers mismatch *and* whose only view has
confidence `1.5` fails with the dimension-mismatch error from the prior, not
with `invalidConfidence` — refuting the claim as stated at this input. -/
theorem C6_counterexample :
    calculate_black_litterman_returns [("A", 1)] ⟨["B"], fun _ _ => 0⟩
        [⟨"A", 1/10, 3/2⟩] (1/20) 0 (5/2) = .error .dimensionMismatch ∧
      calculate_black_litterman_returns [("A", 1)] ⟨["B"], fun _ _ => 0⟩
        [⟨"A", 1/10, 3/2⟩] (1/20) 0 (5/2) ≠ .error .invalidConfidence := by
  have h : calculate_black_litterman_returns [("A", 1)] ⟨["B"], fun _ _ => 0⟩
      [⟨"A", 1/10, 3/2⟩] (1/20) 0 (5/2) = .error .dimensionMismatch := rfl
  refine ⟨h, ?_⟩
  rw [h]
  intro hcontra
  injection hcontra with h2
  exact BLError.noConfusion h2

/-- The least-squares model maps a zero system matrix to the zero solution
(exactly numpy's minimum-norm answer for `a = 0`). -/
theorem npLinalgLstsq_zero {K : ℕ} (b : Fin K → ℚ) :
    npLinalgLstsq (0 : Matrix (Fin K) (Fin K) ℚ) b = 0 := by
  unfold npLinalgLstsq
  rw [Matrix.transpose_zero, Matrix.zero_mulVec]

/-- A zero 1×1 system is singular, so the solver takes the fallback path and
returns the zero solution. -/
theorem npLinalgSolve_zero_fin_one (b : Fin 1 → ℚ) :
    npLinalgSolve (0 : Matrix (Fin 1) (Fin 1) ℚ) b = 0 := by
  unfold npLinalgSolve
  rw [if_pos]
  · exact npLinalgLstsq_zero b
  · rw [Matrix.det_fin_one]
    rfl

/-- The 1×1 system matrix of a one-hot view is `τ Σ_aa + ω`. -/
theorem bl_system_matrix_single (cov : CovDF) (ω τ : ℚ) (a : ℕ)
    (ha : a < cov.tickers.length) :
    bl_system_matrix cov [fun j => if j = a then 1 else 0] [ω] τ 1 0 0 =
      τ * cov.m a a + ω := by
  show (∑ j ∈ Finset.range cov.tickers.length,
      ([fun j' => if j' = a then (1:ℚ) else 0].getD ((0 : Fin 1) : ℕ)
        (fun _ => 0)) j *
        tauSigmaP cov [fun j' => if j' = a then 1 else 0] τ j ((0 : Fin 1) : ℕ)) +
      (if ((0 : Fin 1) : ℕ) = ((0 : Fin 1) : ℕ)
        then [ω].getD ((0 : Fin 1) : ℕ) 0 else 0) =
      τ * cov.m a a + ω
  rw [Fin.val_zero, if_pos rfl]
  have hp0 : ([fun j' => if j' = a then (1:ℚ) else 0].getD 0 (fun _ => 0)) =
      fun j' => if j' = a then (1:ℚ) else 0 := rfl
  rw [hp0]
  have hsum := sum_range_onehot_mul' cov.tickers.length a
    (fun j => tauSigmaP cov [fun j' => if j' = a then 1 else 0] τ j 0) ha
  rw [hsum]
  show tauSigmaP cov [fun j' => if j' = a then 1 else 0] τ a 0 + [ω].getD 0 0 =
    τ * cov.m a a + ω
  rw [tauSigmaP_single cov a τ a ha]
  rfl

/-- When the 1×1 system matrix vanishes, the solver's fallback produces the
zero correction, so the posterior equals the prior values. -/
theorem bl_posterior_singular_fin_one (cov : CovDF) (piL q : List ℚ)
    (p : List (ℕ → ℚ)) (od : List ℚ) (τ : ℚ)
    (hA : bl_system_matrix cov p od τ 1 = 0) :
    bl_posterior cov piL q p od τ 1 =
      (List.range cov.tickers.length).map (fun j => piL.getD j 0) := by
  unfold bl_posterior
  refine List.map_congr_left (fun j _ => ?_)
  rw [hA, npLinalgSolve_zero_fin_one]
  simp

/-- A confidence-1 view on an asset with zero variance makes the system
matrix the zero matrix (numerically singular): the computation silently runs
the least-squares fallback and returns *exactly the same series* as the
zero-view (exact-path) call — the fallback is invisible in the result. -/
theorem calculate_single_view_singular (w : List (String × ℚ)) (cov : CovDF)
    (s : String) (qv τ rf δ : ℚ) (a : ℕ)
    (halign : w.map Prod.fst = cov.tickers)
    (hfind : (w.map Prod.fst).findIdx? (fun t => t = s) = some a)
    (hσ : cov.m a a = 0) :
    calculate_black_litterman_returns w cov [⟨s, qv, 1⟩] τ rf δ =
      calculate_black_litterman_returns w cov [] τ rf δ := by
  have ha : a < cov.tickers.length := by
    have h1 := findIdx?_lt_length hfind
    rwa [halign] at h1
  have hA0 : bl_system_matrix cov [fun j => if j = a then 1 else 0] [0] τ 1 =
      0 := by
    funext i k
    have hi : i = 0 := Subsingleton.elim i 0
    have hk : k = 0 := Subsingleton.elim k 0
    subst hi; subst hk
    rw [bl_system_matrix_single cov 0 τ a ha, hσ]
    simp
  have hprior := prior_ok_of_align δ rf halign
  unfold calculate_black_litterman_returns
  rw [hprior]
  simp only [except_bind_ok, mapExcept, encodeView, hfind, List.map_cons,
    List.map_nil, idzorek_method, List.length_cons, List.length_nil,
    List.range_zero, Nat.zero_add]
  rw [show ([(1:ℚ)].getD 0 0) = 1 from rfl]
  rw [if_neg (by norm_num : ¬((1:ℚ) < 0 ∨ (1:ℚ) > 1)),
    if_neg (by norm_num : ¬(1:ℚ) = 0)]
  rw [show τ * (((1:ℚ) - 1) / 1) *
      quadForm cov ([fun j => if j = a then (1:ℚ) else 0].getD 0 (fun _ => 0)) =
      0 by norm_num]
  dsimp only
  simp only [except_bind_ok]
  rw [bl_posterior_singular_fin_one cov _ _ _ _ _ hA0, bl_posterior_zero]

/-- With all confidences in `[0,1]`, `idzorek_method` cannot fail. -/
theorem idzorek_ok_of_bounds {vc q : List ℚ} (cov : CovDF) (pi : List ℚ)
    (p : List (ℕ → ℚ)) (τ δ : ℚ)
    (hc : ∀ i < q.length, 0 ≤ vc.getD i 0 ∧ vc.getD i 0 ≤ 1) :
    ∃ l, idzorek_method vc cov pi q p τ δ = .ok l := by
  unfold idzorek_method
  apply mapExcept_all_ok
  intro i hi
  have hci := hc i (List.mem_range.mp hi)
  have hnot : ¬(vc.getD i 0 < 0 ∨ vc.getD i 0 > 1) := by
    push_neg
    exact hci
  dsimp only
  rw [if_neg hnot]
  by_cases h0 : vc.getD i 0 = 0
  · rw [if_pos h0]
    exact ⟨_, rfl⟩
  · rw [if_neg h0]
    exact ⟨_, rfl⟩

/-- **C7 (amended).** On every structurally valid input — aligned universe,
all view assets known, all confidences in `[0,1]` — the computation returns
a posterior series, never an exception: in particular on inputs whose K×K
system matrix is singular the `np.linalg.lstsq` fallback silently supplies a
solution instead of failing.  (The claim's observability requirement is
refuted separately: the return value carries no flag.) -/
theorem C7_solver_total_on_valid_input (w : List (String × ℚ)) (cov : CovDF)
    (views : List BlackLittermanView) (τ rf δ : ℚ)
    (halign : w.map Prod.fst = cov.tickers)
    (hfound : ∀ v ∈ views, v.asset ∈ w.map Prod.fst)
    (hconf : ∀ v ∈ views, 0 ≤ v.confidence ∧ v.confidence ≤ 1) :
    ∃ l, calculate_black_litterman_returns w cov views τ rf δ = .ok l := by
  unfold calculate_black_litterman_returns
  rw [prior_ok_of_align δ rf halign]
  simp only [except_bind_ok]
  obtain ⟨idx, hidx⟩ := mapExcept_all_ok
    (f := encodeView (w.map Prod.fst)) (l := views)
    (fun v hv => encodeView_ok_of_mem (hfound v hv))
  rw [hidx]
  simp only [except_bind_ok]
  have hc : ∀ i < (views.map (fun v => v.expected_return)).length,
      0 ≤ (views.map (fun v => v.confidence)).getD i 0 ∧
        (views.map (fun v => v.confidence)).getD i 0 ≤ 1 := by
    intro i hi
    have hi' : i < views.length := by simpa using hi
    rw [getD_map_get (fun v => v.confidence) views i hi' 0]
    exact hconf _ (views.get_mem i hi')
  obtain ⟨od, hod⟩ := idzorek_ok_of_bounds cov
    (((List.range cov.tickers.length).map (fun i =>
      (cov.tickers.getD i "", priorVal w δ cov rf i))).map Prod.snd)
    (idx.map (fun ai => fun j => if j = ai then 1 else 0)) τ δ hc
  rw [hod]
  exact ⟨_, rfl⟩

/-- `Σ` over `[A, B, C]` whose `A` row/column is zero: a PSD covariance on
which a confidence-1 view on `A` makes the 1×1 system matrix exactly `0`. -/
def covZ : CovDF :=
  ⟨["A", "B", "C"], fun i j =>
    if i = 1 ∧ j = 1 then 9/100
    else if i = 2 ∧ j = 2 then 1/100
    else 0⟩

/-- **C7 (counterexample).** At a concrete input the system matrix `M` is
singular (`det M = 0`), the computation takes the least-squares fallback —
and its returned series is *identical* to the series returned by a zero-view
call that takes the exact-solve path.  The caller therefore cannot observe
the fallback from the result: no `NumericalDegeneracy` flag or log is
surfaced, refuting the claim's observability requirement. -/
theorem C7_counterexample :
    (bl_system_matrix covZ [fun j => if j = 0 then 1 else 0] [0]
        (1/20) 1).det = 0 ∧
      calculate_black_litterman_returns w3 covZ [⟨"A", 1/10, 1⟩]
          (1/20) 0 (5/2) =
        calculate_black_litterman_returns w3 covZ [] (1/20) 0 (5/2) := by
  have ha : (0:ℕ) < covZ.tickers.length := by norm_num [covZ]
  have hA0 : bl_system_matrix covZ [fun j => if j = 0 then 1 else 0] [0]
      (1/20) 1 = 0 := by
    funext i k
    have hi : i = 0 := Subsingleton.elim i 0
    have hk : k = 0 := Subsingleton.elim k 0
    subst hi; subst hk
    rw [bl_system_matrix_single covZ 0 (1/20) 0 ha,
      show covZ.m 0 0 = 0 from rfl]
    simp
  constructor
  · rw [hA0, Matrix.det_fin_one]
    simp
  · exact calculate_single_view_singular w3 covZ "A" (1/10) (1/20) 0 (5/2) 0
      rfl rfl rfl

/-- Reading position `a` out of a series built as `keys.zip (range-map)`. -/
theorem seriesValAt_ok_zip (l : List String) (g : ℕ → ℚ) (a : ℕ)
    (ha : a < l.length) :
    seriesValAt (.ok (l.zip ((List.range l.length).map g))) a = g a := by
  unfold seriesValAt
  show ((l.zip ((List.range l.length).map g)).getD a ("", 0)).2 = g a
  rw [zip_range_map l g, getD_range_map _ _ _ _ ha]

/-- The posterior entry of the viewed asset under a single view with positive
confidence: a convex combination `(1-c)·π_a + c·q` of prior and view. -/
theorem calculate_single_view_val (w : List (String × ℚ)) (cov : CovDF)
    (s : String) (qv c τ rf δ : ℚ) (a : ℕ)
    (halign : w.map Prod.fst = cov.tickers)
    (hfind : (w.map Prod.fst).findIdx? (fun t => t = s) = some a)
    (hτ : 0 < τ) (hσ : 0 < cov.m a a) (hc0 : 0 < c) (hc1 : c ≤ 1) :
    seriesValAt (calculate_black_litterman_returns w cov [⟨s, qv, c⟩] τ rf δ) a =
      priorVal w δ cov rf a + c * (qv - priorVal w δ cov rf a) := by
  have ha : a < (w.map Prod.fst).length := findIdx?_lt_length hfind
  have hcne : c ≠ 0 := ne_of_gt hc0
  have hω : (if c = 0 then (1000000:ℚ) else τ * ((1 - c) / c) * cov.m a a) =
      τ * ((1 - c) / c) * cov.m a a := if_neg hcne
  have hM : τ * cov.m a a +
      (if c = 0 then (1000000:ℚ) else τ * ((1 - c) / c) * cov.m a a) ≠ 0 := by
    rw [hω]
    have h1c : 0 ≤ (1 - c) / c := div_nonneg (by linarith) (le_of_lt hc0)
    have hpos : 0 < τ * cov.m a a := mul_pos hτ hσ
    have h2 : 0 ≤ τ * ((1 - c) / c) * cov.m a a :=
      mul_nonneg (mul_nonneg (le_of_lt hτ) h1c) (le_of_lt hσ)
    linarith
  rw [calculate_single_view w cov s qv c τ rf δ a halign hfind
    (le_of_lt hc0) hc1 hM]
  rw [show cov.tickers.length = (w.map Prod.fst).length from by rw [halign]]
  rw [seriesValAt_ok_zip _ _ a ha, hω]
  have hσne : cov.m a a ≠ 0 := ne_of_gt hσ
  have hτne : τ ≠ 0 := ne_of_gt hτ
  have hτσ : τ * cov.m a a ≠ 0 := mul_ne_zero hτne hσne
  have hden : τ * cov.m a a + τ * ((1 - c) / c) * cov.m a a =
      τ * cov.m a a / c := by
    field_simp
    ring
  congr 1
  rw [hden, div_div_eq_mul_div, ← mul_div_assoc,
    mul_comm (τ * cov.m a a) ((qv - priorVal w δ cov rf a) * c),
    mul_div_assoc, div_self hτσ, mul_one]
  ring

/-- **C9 (amended).** For a single view on an asset with positive variance,
positive `τ`, and confidences restricted to `(0, 1]`, the posterior entry of
the viewed asset is `(1-c)·π_a + c·q`, so its distance to the view's stated
return `q` is `(1-c)·|q - π_a|` — monotonically nonincreasing in the
confidence.  (On the full interval `[0,1]` of the original claim the
monotonicity fails at `c = 0`, where the policy constant `1e6` is used; see
the counterexample.) -/
theorem C9_confidence_monotone_on_positive (w : List (String × ℚ))
    (cov : CovDF) (s : String) (qv τ rf δ c₁ c₂ : ℚ) (a : ℕ)
    (halign : w.map Prod.fst = cov.tickers)
    (hfind : (w.map Prod.fst).findIdx? (fun t => t = s) = some a)
    (hτ : 0 < τ) (hσ : 0 < cov.m a a)
    (h1 : 0 < c₁) (h12 : c₁ ≤ c₂) (h2 : c₂ ≤ 1) :
    |qv - seriesValAt
        (calculate_black_litterman_returns w cov [⟨s, qv, c₂⟩] τ rf δ) a| ≤
      |qv - seriesValAt
        (calculate_black_litterman_returns w cov [⟨s, qv, c₁⟩] τ rf δ) a| := by
  rw [calculate_single_view_val w cov s qv c₂ τ rf δ a halign hfind hτ hσ
      (lt_of_lt_of_le h1 h12) h2,
    calculate_single_view_val w cov s qv c₁ τ rf δ a halign hfind hτ hσ
      h1 (le_trans h12 h2)]
  have hre : ∀ c : ℚ,
      qv - (priorVal w δ cov rf a + c * (qv - priorVal w δ cov rf a)) =
        (1 - c) * (qv - priorVal w δ cov rf a) := by
    intro c
    ring
  rw [hre c₂, hre c₁, abs_mul, abs_mul]
  apply mul_le_mul_of_nonneg_right _ (abs_nonneg _)
  rw [abs_of_nonneg (by linarith : (0:ℚ) ≤ 1 - c₂),
    abs_of_nonneg (by linarith : (0:ℚ) ≤ 1 - c₁)]
  linarith

/-- `Σ = (0.04)` on the one-asset universe `[A]`. -/
def cov1 : CovDF := ⟨["A"], fun i j => if i = 0 ∧ j = 0 then 1/25 else 0⟩

/-- **C9 (counterexample).** Increasing the single view's confidence from `0`
to `10⁻¹⁰` (everything else fixed: universe `[A]`, `Σ = (0.04)`, weight 1,
`δ = 1`, `rf = 0`, `τ = 0.05`, view return `0.10`) moves the posterior
*farther* from the view's stated value: at `c = 0` the policy constant `1e6`
is a *smaller* uncertainty than Idzorek's `τ((1-c)/c)Σ_aa ≈ 2·10⁷` at
`c = 10⁻¹⁰`, so the claimed monotonicity on `[0,1]` fails. -/
theorem C9_counterexample :
    ((0:ℚ) < 1/10000000000) ∧
      |(1/10:ℚ) - seriesValAt (calculate_black_litterman_returns [("A", 1)]
          cov1 [⟨"A", 1/10, 1/10000000000⟩] (1/20) 0 1) 0| >
        |(1/10:ℚ) - seriesValAt (calculate_black_litterman_returns [("A", 1)]
          cov1 [⟨"A", 1/10, 0⟩] (1/20) 0 1) 0| := by
  have hP : priorVal [("A", (1:ℚ))] 1 cov1 0 0 = 1/25 := by
    norm_num [priorVal, cov1, Finset.sum_range_succ,
      show List.lookup "A" [("A", (1:ℚ))] = some 1 from rfl]
  have hε : seriesValAt (calculate_black_litterman_returns [("A", 1)] cov1
      [⟨"A", 1/10, 1/10000000000⟩] (1/20) 0 1) 0 = 20000000003/500000000000 := by
    rw [calculate_single_view_val [("A", 1)] cov1 "A" (1/10) (1/10000000000)
      (1/20) 0 1 0 rfl rfl (by norm_num)
      (by norm_num [cov1]) (by norm_num) (by norm_num)]
    rw [hP]
    norm_num
  have h0 : seriesValAt (calculate_black_litterman_returns [("A", 1)] cov1
      [⟨"A", 1/10, 0⟩] (1/20) 0 1) 0 = 66666667/1666666670 := by
    rw [calculate_single_view [("A", 1)] cov1 "A" (1/10) 0 (1/20) 0 1 0
      rfl rfl le_rfl zero_le_one (by norm_num [cov1])]
    rw [show cov1.tickers.length =
      (List.map Prod.fst [("A", (1:ℚ))]).length from rfl]
    rw [seriesValAt_ok_zip _ _ 0 (by norm_num)]
    rw [hP]
    norm_num [cov1]
  rw [hε, h0]
  rw [abs_of_pos (by norm_num : (0:ℚ) < 1/10 - 20000000003/500000000000),
    abs_of_pos (by norm_num : (0:ℚ) < 1/10 - 66666667/1666666670)]
  norm_num

/-! ## Witnesses -/

/-- Witness for C1 at the concrete three-asset fixture. -/
theorem C1_zero_views_posterior_equals_prior_witness :
    calculate_black_litterman_returns w3 cov3 [] (1/20) 0 (5/2) =
      market_implied_prior_returns w3 (5/2) cov3 0 :=
  C1_zero_views_posterior_equals_prior w3 cov3 (1/20) 0 (5/2) rfl

/-- Witness for C2 at the concrete fixture, scaling constant `2`. -/
theorem C2_prior_formula_and_scale_invariance_witness :
    market_implied_prior_returns w3 (5/2) cov3 0 =
        .ok (prior_spec_formula w3 (5/2) cov3 0) ∧
      market_implied_prior_returns (w3.map (fun p => (p.1, 2 * p.2)))
          (5/2) cov3 0 =
        market_implied_prior_returns w3 (5/2) cov3 0 :=
  C2_prior_formula_and_scale_invariance w3 cov3 (5/2) 0 2 rfl
    (by norm_num [w3]) (by norm_num)

/-- Witness for C3: one view of confidence `0.8`. -/
theorem C3_idzorek_uncertainty_matrix_witness :
    ∃ l, idzorek_method [4/5] cov3 [] [1/10]
        [fun j => if j = 0 then 1 else 0] (1/20) (5/2) = .ok l ∧
      l.length = [(1/10 : ℚ)].length ∧
      (∀ i < [(1/10 : ℚ)].length, l.getD i 0 =
        if [(4/5 : ℚ)].getD i 0 = 0 then 1000000
        else (1/20) * ((1 - [(4/5 : ℚ)].getD i 0) / [(4/5 : ℚ)].getD i 0) *
          quadForm cov3 ([fun j => if j = 0 then (1:ℚ) else 0].getD i
            (fun _ => 0))) ∧
      (∀ i k : Fin [(1/10 : ℚ)].length, i ≠ k →
        Matrix.diagonal (fun i : Fin [(1/10 : ℚ)].length =>
          l.getD (i : ℕ) 0) i k = 0) :=
  C3_idzorek_uncertainty_matrix [4/5] cov3 [] [1/10]
    [fun j => if j = 0 then 1 else 0] (1/20) (5/2)
    (fun i hi => by
      have h0 : i = 0 := Nat.lt_one_iff.mp (by simpa using hi)
      subst h0
      constructor <;> norm_num)

/-- Witness for C5: a view naming `ZZZZ` outside the universe `[A,B,C]`. -/
theorem C5_unknown_asset_aborts_witness :
    ∃ s, calculate_black_litterman_returns w3 cov3
        [⟨"ZZZZ", 1/20, 1/2⟩] (1/20) 0 (5/2) =
      .error (.unknownAsset s) ∧ s ∉ w3.map Prod.fst :=
  C5_unknown_asset_aborts w3 cov3 [⟨"ZZZZ", 1/20, 1/2⟩] (1/20) 0 (5/2) rfl
    ⟨⟨"ZZZZ", 1/20, 1/2⟩, List.mem_cons_self _ _, by decide⟩

/-- Witness for the amended C6: confidence `1.5` on an aligned input. -/
theorem C6_invalid_confidence_aborts_witness :
    calculate_black_litterman_returns w3 cov3 [⟨"A", 1/10, 3/2⟩]
        (1/20) 0 (5/2) = .error .invalidConfidence :=
  C6_invalid_confidence_aborts w3 cov3 [⟨"A", 1/10, 3/2⟩] (1/20) 0 (5/2) rfl
    (fun v hv => by
      rcases List.mem_singleton.mp hv with rfl
      decide)
    ⟨0, by norm_num, Or.inr (by norm_num)⟩

/-- Witness for the amended C7 at the singular concrete input. -/
theorem C7_solver_total_on_valid_input_witness :
    ∃ l, calculate_black_litterman_returns w3 covZ [⟨"A", 1/10, 1⟩]
        (1/20) 0 (5/2) = .ok l :=
  C7_solver_total_on_valid_input w3 covZ [⟨"A", 1/10, 1⟩] (1/20) 0 (5/2) rfl
    (fun v hv => by
      rcases List.mem_singleton.mp hv with rfl
      decide)
    (fun v hv => by
      rcases List.mem_singleton.mp hv with rfl
      exact ⟨zero_le_one, le_refl 1⟩)

/-- Witness for the amended C9: confidences `0.5 ≤ 0.8` at the fixture. -/
theorem C9_confidence_monotone_on_positive_witness :
    |(1/10 : ℚ) - seriesValAt (calculate_black_litterman_returns w3 cov3
        [⟨"A", 1/10, 4/5⟩] (1/20) 0 (5/2)) 0| ≤
      |(1/10 : ℚ) - seriesValAt (calculate_black_litterman_returns w3 cov3
        [⟨"A", 1/10, 1/2⟩] (1/20) 0 (5/2)) 0| :=
  C9_confidence_monotone_on_positive w3 cov3 "A" (1/10) (1/20) 0 (5/2)
    (1/2) (4/5) 0 rfl rfl (by norm_num) (by norm_num [cov3])
    (by norm_num) (by norm_num) (by norm_num)
